import Mathlib

/-!
Shallow embedding of `interpreter.c` (a Brainfuck interpreter).

The C program keeps a global `char memory[256]` and a pointer
`current_cell` into it.  We model that state explicitly: the tape is a
list of cell values kept in `[0, 256)` (byte arithmetic is modelled as
`% 256`, matching the spec's "wrapping modulo 256"), the cursor is a
`Nat` index, and the input/output streams of `getchar`/`printf` are
explicit lists.  Error messages printed by the C code are recorded in an
`errs` list instead of being interleaved into the character output.

The `while (*current_cell != 0)` loop of `parse_block` need not
terminate, so `parse_block` and its loop take a fuel parameter and
return `none` when fuel runs out; `some s` means the C code terminates
in state `s` (more fuel never changes a `some` result).
-/

set_option maxRecDepth 8000

namespace BF

/-- `#define MEMORY_SIZE 256` -/
def MEMORY_SIZE : Nat := 256

/-- Error messages the interpreter prints (`printf("Error! ...")`). -/
inductive Err where
  | atEnd      -- "Error! current cell is at the end of memory"
  | atStart    -- "Error! current cell is in the begining of memory"
  | unbalanced -- "Error! unbalanced blocks" / "Error! unbalanced brackets"
deriving DecidableEq

/-- The interpreter's mutable state: the global tape and cursor of the C
program, plus the explicit input stream consumed by `getchar`, the
character output of `.`, and the error messages printed so far. -/
structure IState where
  tape : List Nat
  cursor : Nat
  input : List Nat
  output : List Nat
  errs : List Err
deriving DecidableEq

/-- The state at process start: `char memory[MEMORY_SIZE] = { 0 }`,
`current_cell = memory`, with a given pending input stream. -/
def initWith (inp : List Nat) : IState :=
  { tape := List.replicate MEMORY_SIZE 0, cursor := 0,
    input := inp, output := [], errs := [] }

/-- Fresh state with empty input. -/
def init : IState := initWith []

/-- `*current_cell` (read).  At an out-of-range cursor the C code reads
out of bounds; the model returns 0 there. -/
def getCell (s : IState) : Nat := s.tape.getD s.cursor 0

/-- `*current_cell = v` (write).  At an out-of-range cursor the C code
writes out of bounds; `List.set` is a no-op there. -/
def setCell (s : IState) (v : Nat) : IState :=
  { s with tape := s.tape.set s.cursor v }

/-- `(*current_cell)++` : byte arithmetic wraps modulo 256. -/
def incCell (s : IState) : IState := setCell s ((getCell s + 1) % 256)

/-- `(*current_cell)--` : subtracting 1 modulo 256 is adding 255. -/
def decCell (s : IState) : IState := setCell s ((getCell s + 255) % 256)

/-- `getchar()`: returns the next input byte, or the sentinel `EOF = -1`
when the input source is exhausted. -/
def getchar : List Nat → Int × List Nat
  | [] => (-1, [])
  | c :: rest => ((c : Int), rest)

/-- Truncation of the `int` returned by `getchar` to the 8-bit cell
(`*current_cell = getchar()`): value modulo 256, so `EOF = -1` becomes
the byte `0xFF = 255`. -/
def truncByte (z : Int) : Nat := (z % 256).toNat

/-- `case ','`: store the read character truncated to the cell width,
then `if (*current_cell == '\n') *current_cell = 0;` (`'\n'` is 10). -/
def inC (s : IState) : IState :=
  let r := getchar s.input
  let v := truncByte r.1
  { setCell s (if v = 10 then 0 else v) with input := r.2 }

/-- `case '.'`: `printf("%c", *current_cell)`. -/
def outC (s : IState) : IState := { s with output := s.output ++ [getCell s] }

/-- `parse_command` (interpreter.c, lines 100-144): flat dispatch of a
bracket-free command, character by character.  `>` moves right if
`(memory + MEMORY_SIZE) - current_cell > 0`, i.e. `MEMORY_SIZE - cursor
> 0`; `<` moves left if `current_cell - memory > 0`, i.e. `cursor > 0`;
on a failed move the C code prints an error and `return`s, so the rest
of the command is skipped.  Unrecognized characters fall through the
`default:` case and are ignored. -/
def parse_command : List Char → IState → IState
  | [], s => s
  | c :: rest, s =>
    if c = '+' then parse_command rest (incCell s)
    else if c = '-' then parse_command rest (decCell s)
    else if c = '>' then
      if MEMORY_SIZE - s.cursor > 0 then
        parse_command rest { s with cursor := s.cursor + 1 }
      else { s with errs := s.errs ++ [Err.atEnd] }
    else if c = '<' then
      if s.cursor > 0 then
        parse_command rest { s with cursor := s.cursor - 1 }
      else { s with errs := s.errs ++ [Err.atStart] }
    else if c = '.' then parse_command rest (outC s)
    else if c = ',' then parse_command rest (inC s)
    else parse_command rest s

/-- Result of `is_open_block`: `INVALID_BLOCK` / `CLOSED_BLOCK` /
`OPENED_BLOCK`. -/
inductive BlockState where
  | invalid
  | closed
  | opened
deriving DecidableEq

/-- Scanning loop of `is_open_block` with the running `balance`. -/
def is_open_block_aux : List Char → Int → BlockState
  | [], balance => if balance > 0 then .opened else .closed
  | c :: rest, balance =>
    if c = '[' then is_open_block_aux rest (balance + 1)
    else if c = ']' then
      if balance - 1 < 0 then .invalid
      else is_open_block_aux rest (balance - 1)
    else is_open_block_aux rest balance

/-- `is_open_block` (interpreter.c, lines 266-284): classify the bracket
nesting of a command with a counter; `INVALID_BLOCK` as soon as the
counter goes negative, else `OPENED_BLOCK` iff it ends positive. -/
def is_open_block (command : List Char) : BlockState :=
  is_open_block_aux command 0

/-- Scanning loop of `find_closing` with the running `balance` and the
current index. -/
def find_closing_aux : List Char → Int → Nat → Option Nat
  | [], _, _ => none
  | c :: rest, balance, i =>
    if c = '[' then find_closing_aux rest (balance + 1) (i + 1)
    else if c = ']' then
      if balance - 1 = 0 then some i
      else find_closing_aux rest (balance - 1) (i + 1)
    else find_closing_aux rest balance (i + 1)

/-- `find_closing` (interpreter.c, lines 240-257): index of the first
closing bracket that brings the running balance back to zero;
`INVALID_BLOCK` (modelled `none`) if there is none. -/
def find_closing (command : List Char) : Option Nat :=
  find_closing_aux command 0 0

mutual
/-- `parse_block` (interpreter.c, lines 153-202) with fuel: splits the
command at the first `[` (found by `strchr`) and its matching `]`
(found by `find_closing`), runs the flat prefix, loops the body while
the current cell is non-zero via `run_loop` (recursing when the body
contains `[`), then runs the suffix the same way.  When `find_closing`
fails the C code would use the huge `size_t` value
`(size_t)INVALID_BLOCK`; that path is unreachable on the balanced
commands `parse_block` receives and is modelled as `none`. -/
def parse_block : Nat → List Char → IState → Option IState
  | 0, _, _ => none
  | fuel + 1, command, s =>
    if command = [] then some s
    else
      let start_block_index := command.findIdx (fun c => c = '[')
      match find_closing command with
      | none => none
      | some end_block_index =>
        let s1 := if start_block_index ≠ 0 then
            parse_command (command.take start_block_index) s
          else s
        let body := (command.drop (start_block_index + 1)).take
            (end_block_index - start_block_index - 1)
        match run_loop fuel body s1 with
        | none => none
        | some s2 =>
          let len := command.length - end_block_index
          if len > 1 then
            let suffix := command.drop (end_block_index + 1)
            if suffix.contains '[' then parse_block fuel suffix s2
            else some (parse_command suffix s2)
          else some s2

/-- The `while (*current_cell != 0)` loop of `parse_block`
(interpreter.c, lines 179-185), with fuel. -/
def run_loop : Nat → List Char → IState → Option IState
  | 0, _, _ => none
  | fuel + 1, body, s =>
    if getCell s ≠ 0 then
      match (if body.contains '[' then parse_block fuel body s
             else some (parse_command body s)) with
      | none => none
      | some s' => run_loop fuel body s'
    else some s
end

/-- One iteration of `main`'s read-eval loop (interpreter.c, lines
46-60) on an already-read non-empty command: if the command contains a
`[` it is classified by `is_open_block` — `INVALID_BLOCK` prints
"Error! unbalanced blocks" and `continue`s to the next prompt,
`OPENED_BLOCK` blocks in `read_block` for more input lines (outside the
modelled core, hence `none`), `CLOSED_BLOCK` runs `parse_block` —
otherwise the command goes straight to `parse_command`.  A `some`
result means the loop reaches the next prompt with that state. -/
def handle_command (fuel : Nat) (command : List Char) (s : IState) :
    Option IState :=
  if command.contains '[' then
    match is_open_block command with
    | .invalid => some { s with errs := s.errs ++ [Err.unbalanced] }
    | .opened => none
    | .closed => parse_block fuel command s
  else some (parse_command command s)

/-! ## Helper lemmas -/

/-- Reading the cell just written by `setCell` gives the written value
(when the cursor is inside the tape). -/
theorem getCell_setCell (s : IState) (v : Nat) (h : s.cursor < s.tape.length) :
    getCell (setCell s v) = v := by
  simp [getCell, setCell, List.getD, List.getElem?_set_self', h]

/-- Flat dispatch only reads and writes the tape, the cursor and the
input stream: runs of the same command from two states that agree on
those three components (the output and error history may differ) agree
on them afterwards.  Induction over the command, one case per
instruction. -/
theorem parse_command_tci : ∀ (command : List Char) (s t : IState),
    s.tape = t.tape → s.cursor = t.cursor → s.input = t.input →
    (parse_command command s).tape = (parse_command command t).tape ∧
    (parse_command command s).cursor = (parse_command command t).cursor ∧
    (parse_command command s).input = (parse_command command t).input := by
  intro command
  induction command with
  | nil => exact fun s t h1 h2 h3 => ⟨h1, h2, h3⟩
  | cons c rest ih =>
    intro s t h1 h2 h3
    have hcell : getCell s = getCell t := by
      unfold getCell
      rw [h1, h2]
    by_cases hp : c = '+'
    · subst hp
      show (parse_command rest (incCell s)).tape = (parse_command rest (incCell t)).tape ∧ _
      exact ih _ _ (by simp [incCell, setCell, h1, h2, hcell])
        (by simp [incCell, setCell, h2]) (by simp [incCell, setCell, h3])
    · by_cases hm : c = '-'
      · subst hm
        show (parse_command rest (decCell s)).tape = (parse_command rest (decCell t)).tape ∧ _
        exact ih _ _ (by simp [decCell, setCell, h1, h2, hcell])
          (by simp [decCell, setCell, h2]) (by simp [decCell, setCell, h3])
      · by_cases hr : c = '>'
        · subst hr
          have e1 : parse_command ('>' :: rest) s =
              if MEMORY_SIZE - s.cursor > 0 then
                parse_command rest { s with cursor := s.cursor + 1 }
              else { s with errs := s.errs ++ [Err.atEnd] } := rfl
          have e2 : parse_command ('>' :: rest) t =
              if MEMORY_SIZE - t.cursor > 0 then
                parse_command rest { t with cursor := t.cursor + 1 }
              else { t with errs := t.errs ++ [Err.atEnd] } := rfl
          rw [e1, e2, ← h2]
          by_cases hc : MEMORY_SIZE - s.cursor > 0
          · rw [if_pos hc, if_pos hc]
            exact ih _ _ h1 (by simp [h2]) h3
          · rw [if_neg hc, if_neg hc]
            exact ⟨h1, rfl, h3⟩
        · by_cases hl : c = '<'
          · subst hl
            have e1 : parse_command ('<' :: rest) s =
                if s.cursor > 0 then
                  parse_command rest { s with cursor := s.cursor - 1 }
                else { s with errs := s.errs ++ [Err.atStart] } := rfl
            have e2 : parse_command ('<' :: rest) t =
                if t.cursor > 0 then
                  parse_command rest { t with cursor := t.cursor - 1 }
                else { t with errs := t.errs ++ [Err.atStart] } := rfl
            rw [e1, e2, ← h2]
            by_cases hc : s.cursor > 0
            · rw [if_pos hc, if_pos hc]
              exact ih _ _ h1 (by simp [h2]) h3
            · rw [if_neg hc, if_neg hc]
              exact ⟨h1, rfl, h3⟩
          · by_cases ho : c = '.'
            · subst ho
              show (parse_command rest (outC s)).tape = (parse_command rest (outC t)).tape ∧ _
              exact ih _ _ (by simp [outC, h1]) (by simp [outC, h2]) (by simp [outC, h3])
            · by_cases hi : c = ','
              · subst hi
                show (parse_command rest (inC s)).tape = (parse_command rest (inC t)).tape ∧ _
                exact ih _ _ (by simp [inC, setCell, h1, h2, h3])
                  (by simp [inC, setCell, h2]) (by simp [inC, setCell, h3])
              · have e1 : parse_command (c :: rest) s = parse_command rest s := by
                  simp only [parse_command, if_neg hp, if_neg hm, if_neg hr, if_neg hl,
                    if_neg ho, if_neg hi]
                have e2 : parse_command (c :: rest) t = parse_command rest t := by
                  simp only [parse_command, if_neg hp, if_neg hm, if_neg hr, if_neg hl,
                    if_neg ho, if_neg hi]
                rw [e1, e2]
                exact ih _ _ h1 h2 h3

/-- Bracket-nesting count of a text: openers minus closers.  The
running value of the scanners' `balance` counter after a prefix `p` of
the scanned text is `nest p`. -/
def nest (l : List Char) : Int := (l.count '[' : Int) - (l.count ']' : Int)

theorem nest_nil : nest [] = 0 := rfl

theorem nest_cons_open (l : List Char) : nest ('[' :: l) = 1 + nest l := by
  simp [nest, List.count_cons]
  ring

theorem nest_cons_close (l : List Char) : nest (']' :: l) = nest l - 1 := by
  simp [nest, List.count_cons]
  ring

theorem nest_cons_other (c : Char) (l : List Char) (h1 : c ≠ '[') (h2 : c ≠ ']') :
    nest (c :: l) = nest l := by
  simp [nest, List.count_cons, Ne.symm h1, Ne.symm h2]

theorem nest_append (a b : List Char) : nest (a ++ b) = nest a + nest b := by
  simp [nest, List.count_append]
  ring

theorem nest_eq_zero_of_no_brackets (l : List Char)
    (h : ∀ c ∈ l, c ≠ '[' ∧ c ≠ ']') : nest l = 0 := by
  have h1 : l.count '[' = 0 :=
    List.count_eq_zero_of_not_mem (fun hm => (h _ hm).1 rfl)
  have h2 : l.count ']' = 0 :=
    List.count_eq_zero_of_not_mem (fun hm => (h _ hm).2 rfl)
  simp [nest, h1, h2]

theorem prefix_cons_cases (p : List Char) (c : Char) (l : List Char)
    (h : p <+: c :: l) : p = [] ∨ ∃ q, p = c :: q ∧ q <+: l := by
  rcases p with _ | ⟨d, q⟩
  · exact Or.inl rfl
  · rw [List.cons_prefix_cons] at h
    exact Or.inr ⟨q, by rw [h.1], h.2⟩

/-- The classifying scan started at a non-negative counter value `b`
reports `INVALID_BLOCK` exactly when some prefix of the remaining text
drives the running counter below zero. -/
theorem is_open_block_aux_invalid_iff :
    ∀ (l : List Char) (b : Int), 0 ≤ b →
      (is_open_block_aux l b = .invalid ↔ ∃ p, p <+: l ∧ b + nest p < 0) := by
  intro l
  induction l with
  | nil =>
    intro b hb
    constructor
    · intro h
      exfalso
      unfold is_open_block_aux at h
      by_cases hbpos : b > 0 <;> simp [hbpos] at h
    · rintro ⟨p, hp, hlt⟩
      rw [List.prefix_nil] at hp
      subst hp
      rw [nest_nil] at hlt
      omega
  | cons c rest ih =>
    intro b hb
    by_cases hc : c = '['
    · subst hc
      have e : is_open_block_aux ('[' :: rest) b = is_open_block_aux rest (b + 1) := by
        simp [is_open_block_aux]
      rw [e, ih (b + 1) (by omega)]
      constructor
      · rintro ⟨p, hp, hlt⟩
        refine ⟨'[' :: p, List.cons_prefix_cons.mpr ⟨rfl, hp⟩, ?_⟩
        rw [nest_cons_open]
        omega
      · rintro ⟨p, hp, hlt⟩
        rcases prefix_cons_cases p _ _ hp with h0 | ⟨q, rfl, hq⟩
        · subst h0
          rw [nest_nil] at hlt
          omega
        · rw [nest_cons_open] at hlt
          exact ⟨q, hq, by omega⟩
    · by_cases hc2 : c = ']'
      · subst hc2
        by_cases hneg : b - 1 < 0
        · have e : is_open_block_aux (']' :: rest) b = .invalid := by
            simp [is_open_block_aux, hneg]
          rw [e]
          constructor
          · intro _
            refine ⟨[']'], List.cons_prefix_cons.mpr ⟨rfl, List.nil_prefix⟩, ?_⟩
            rw [nest_cons_close, nest_nil]
            omega
          · intro _
            rfl
        · have e : is_open_block_aux (']' :: rest) b = is_open_block_aux rest (b - 1) := by
            simp [is_open_block_aux, hneg]
          rw [e, ih (b - 1) (by omega)]
          constructor
          · rintro ⟨p, hp, hlt⟩
            refine ⟨']' :: p, List.cons_prefix_cons.mpr ⟨rfl, hp⟩, ?_⟩
            rw [nest_cons_close]
            omega
          · rintro ⟨p, hp, hlt⟩
            rcases prefix_cons_cases p _ _ hp with h0 | ⟨q, rfl, hq⟩
            · subst h0
              rw [nest_nil] at hlt
              omega
            · rw [nest_cons_close] at hlt
              exact ⟨q, hq, by omega⟩
      · have e : is_open_block_aux (c :: rest) b = is_open_block_aux rest b := by
          simp [is_open_block_aux, hc, hc2]
        rw [e, ih b hb]
        constructor
        · rintro ⟨p, hp, hlt⟩
          refine ⟨c :: p, List.cons_prefix_cons.mpr ⟨rfl, hp⟩, ?_⟩
          rw [nest_cons_other c p hc hc2]
          exact hlt
        · rintro ⟨p, hp, hlt⟩
          rcases prefix_cons_cases p _ _ hp with h0 | ⟨q, rfl, hq⟩
          · subst h0
            rw [nest_nil] at hlt
            omega
          · rw [nest_cons_other c q hc hc2] at hlt
            exact ⟨q, hq, hlt⟩

/-- On text whose running counter never drops below zero, the
classifying scan ends with `OPENED_BLOCK` iff the final counter is
positive, else `CLOSED_BLOCK`. -/
theorem is_open_block_aux_ok :
    ∀ (l : List Char) (b : Int), 0 ≤ b →
      (∀ p, p <+: l → 0 ≤ b + nest p) →
      is_open_block_aux l b = if b + nest l > 0 then .opened else .closed := by
  intro l
  induction l with
  | nil =>
    intro b hb _
    rw [nest_nil]
    simp [is_open_block_aux]
  | cons c rest ih =>
    intro b hb hpre
    by_cases hc : c = '['
    · subst hc
      have e : is_open_block_aux ('[' :: rest) b = is_open_block_aux rest (b + 1) := by
        simp [is_open_block_aux]
      rw [e, ih (b + 1) (by omega) ?hp, nest_cons_open]
      · have harith : b + (1 + nest rest) = b + 1 + nest rest := by ring
        rw [harith]
      case hp =>
        intro p hp
        have := hpre ('[' :: p) (List.cons_prefix_cons.mpr ⟨rfl, hp⟩)
        rw [nest_cons_open] at this
        omega
    · by_cases hc2 : c = ']'
      · subst hc2
        have hok : 0 ≤ b + (nest [']'] : Int) :=
          hpre [']'] (List.cons_prefix_cons.mpr ⟨rfl, List.nil_prefix⟩)
        rw [nest_cons_close, nest_nil] at hok
        have hneg : ¬(b - 1 < 0) := by omega
        have e : is_open_block_aux (']' :: rest) b = is_open_block_aux rest (b - 1) := by
          simp [is_open_block_aux, hneg]
        rw [e, ih (b - 1) (by omega) ?hp, nest_cons_close]
        · have harith : b + (nest rest - 1) = b - 1 + nest rest := by ring
          rw [harith]
        case hp =>
          intro p hp
          have := hpre (']' :: p) (List.cons_prefix_cons.mpr ⟨rfl, hp⟩)
          rw [nest_cons_close] at this
          omega
      · have e : is_open_block_aux (c :: rest) b = is_open_block_aux rest b := by
          simp [is_open_block_aux, hc, hc2]
        rw [e, ih b hb ?hp, nest_cons_other c rest hc hc2]
        case hp =>
          intro p hp
          have := hpre (c :: p) (List.cons_prefix_cons.mpr ⟨rfl, hp⟩)
          rw [nest_cons_other c p hc hc2] at this
          omega

/-- `find_closing`'s scan ignores non-bracket characters: a
bracket-free chunk at the front only advances the index. -/
theorem find_closing_aux_skip :
    ∀ (pre l : List Char) (b : Int) (i : Nat),
      (∀ c ∈ pre, c ≠ '[' ∧ c ≠ ']') →
      find_closing_aux (pre ++ l) b i = find_closing_aux l b (i + pre.length) := by
  intro pre
  induction pre with
  | nil =>
    intro l b i _
    rfl
  | cons c rest ih =>
    intro l b i h
    obtain ⟨h1, h2⟩ := h c (List.mem_cons_self c rest)
    have e : find_closing_aux ((c :: rest) ++ l) b i
        = find_closing_aux (rest ++ l) b (i + 1) := by
      simp [find_closing_aux, h1, h2]
    rw [e, ih l b (i + 1) (fun d hd => h d (List.mem_cons_of_mem c hd))]
    congr 1
    simp [List.length_cons]
    omega

/-- Soundness of `find_closing`'s scan from a positive counter `k`: a
returned index points `j` characters in, at a `]`, where the running
counter first returns to zero (it is strictly positive on every shorter
prefix). -/
theorem find_closing_aux_some :
    ∀ (l : List Char) (k : Int) (i e : Nat),
      0 < k → find_closing_aux l k i = some e →
      ∃ j, e = i + j ∧ j < l.length ∧ l.getD j ' ' = ']' ∧
        k + nest (l.take (j + 1)) = 0 ∧
        ∀ m, m ≤ j → 0 < k + nest (l.take m) := by
  intro l
  induction l with
  | nil =>
    intro k i e _ h
    exact absurd h (by simp [find_closing_aux])
  | cons c rest ih =>
    intro k i e hk h
    by_cases hc : c = '['
    · subst hc
      have e1 : find_closing_aux ('[' :: rest) k i
          = find_closing_aux rest (k + 1) (i + 1) := by
        simp [find_closing_aux]
      rw [e1] at h
      obtain ⟨j, hj, hjlt, hjc, hz, hpos⟩ := ih (k + 1) (i + 1) e (by omega) h
      refine ⟨j + 1, by omega, by simp; omega, by simpa using hjc, ?_, ?_⟩
      · rw [List.take_succ_cons, nest_cons_open]
        omega
      · intro m hm
        cases m with
        | zero =>
          rw [List.take_zero, nest_nil]
          omega
        | succ m2 =>
          rw [List.take_succ_cons, nest_cons_open]
          have := hpos m2 (by omega)
          omega
    · by_cases hc2 : c = ']'
      · subst hc2
        by_cases hone : k - 1 = 0
        · have e1 : find_closing_aux (']' :: rest) k i = some i := by
            simp [find_closing_aux, hone]
          rw [e1] at h
          injection h with h
          refine ⟨0, by omega, by simp, by simp, ?_, ?_⟩
          · rw [List.take_succ_cons, List.take_zero, nest_cons_close, nest_nil]
            omega
          · intro m hm
            interval_cases m
            rw [List.take_zero, nest_nil]
            omega
        · have e1 : find_closing_aux (']' :: rest) k i
              = find_closing_aux rest (k - 1) (i + 1) := by
            simp [find_closing_aux, hone]
          rw [e1] at h
          obtain ⟨j, hj, hjlt, hjc, hz, hpos⟩ := ih (k - 1) (i + 1) e (by omega) h
          refine ⟨j + 1, by omega, by simp; omega, by simpa using hjc, ?_, ?_⟩
          · rw [List.take_succ_cons, nest_cons_close]
            omega
          · intro m hm
            cases m with
            | zero =>
              rw [List.take_zero, nest_nil]
              omega
            | succ m2 =>
              rw [List.take_succ_cons, nest_cons_close]
              have := hpos m2 (by omega)
              omega
      · have e1 : find_closing_aux (c :: rest) k i
            = find_closing_aux rest k (i + 1) := by
          simp [find_closing_aux, hc, hc2]
        rw [e1] at h
        obtain ⟨j, hj, hjlt, hjc, hz, hpos⟩ := ih k (i + 1) e hk h
        refine ⟨j + 1, by omega, by simp; omega, by simpa using hjc, ?_, ?_⟩
        · rw [List.take_succ_cons, nest_cons_other c _ hc hc2]
          omega
        · intro m hm
          cases m with
          | zero =>
            rw [List.take_zero, nest_nil]
            omega
          | succ m2 =>
            rw [List.take_succ_cons, nest_cons_other c _ hc hc2]
            have := hpos m2 (by omega)
            omega

/-- Completeness of `find_closing`'s scan: if from a positive counter
`k` some prefix of the remaining text brings the counter down to zero
or below, the scan returns an index. -/
theorem find_closing_aux_isSome :
    ∀ (l : List Char) (k : Int) (i : Nat),
      0 < k → (∃ m, m ≤ l.length ∧ k + nest (l.take m) ≤ 0) →
      (find_closing_aux l k i).isSome = true := by
  intro l
  induction l with
  | nil =>
    intro k i hk ⟨m, hm, hle⟩
    rw [List.length_nil] at hm
    interval_cases m
    rw [List.take_nil, nest_nil] at hle
    omega
  | cons c rest ih =>
    intro k i hk ⟨m, hm, hle⟩
    by_cases hc : c = '['
    · subst hc
      have e1 : find_closing_aux ('[' :: rest) k i
          = find_closing_aux rest (k + 1) (i + 1) := by
        simp [find_closing_aux]
      rw [e1]
      cases m with
      | zero =>
        rw [List.take_zero, nest_nil] at hle
        omega
      | succ m2 =>
        rw [List.take_succ_cons, nest_cons_open] at hle
        exact ih (k + 1) (i + 1) (by omega) ⟨m2, by simpa using hm, by omega⟩
    · by_cases hc2 : c = ']'
      · subst hc2
        by_cases hone : k - 1 = 0
        · simp [find_closing_aux, hone]
        · have e1 : find_closing_aux (']' :: rest) k i
              = find_closing_aux rest (k - 1) (i + 1) := by
            simp [find_closing_aux, hone]
          rw [e1]
          cases m with
          | zero =>
            rw [List.take_zero, nest_nil] at hle
            omega
          | succ m2 =>
            rw [List.take_succ_cons, nest_cons_close] at hle
            exact ih (k - 1) (i + 1) (by omega) ⟨m2, by simpa using hm, by omega⟩
      · have e1 : find_closing_aux (c :: rest) k i
            = find_closing_aux rest k (i + 1) := by
          simp [find_closing_aux, hc, hc2]
        rw [e1]
        cases m with
        | zero =>
          rw [List.take_zero, nest_nil] at hle
          omega
        | succ m2 =>
          rw [List.take_succ_cons, nest_cons_other c _ hc hc2] at hle
          exact ih k (i + 1) hk ⟨m2, by simpa using hm, by omega⟩

/-! ## Claims -/

/-- Claim C8: the `+` and `-` instructions rewrite the cell at the
cursor to its value plus one, respectively plus 255, modulo 256, and
never signal an error (the error list is untouched); in particular
incrementing the maximum cell value 255 yields the minimum 0, and
decrementing 0 yields 255. -/
theorem c8_cell_arith_wraps :
    (∀ s : IState,
        parse_command ['+'] s = setCell s ((getCell s + 1) % 256) ∧
        parse_command ['-'] s = setCell s ((getCell s + 255) % 256) ∧
        (parse_command ['+'] s).errs = s.errs ∧
        (parse_command ['-'] s).errs = s.errs) ∧
    (∀ s : IState, s.cursor < s.tape.length → getCell s = 255 →
        getCell (parse_command ['+'] s) = 0) ∧
    (∀ s : IState, s.cursor < s.tape.length → getCell s = 0 →
        getCell (parse_command ['-'] s) = 255) := by
  refine ⟨fun s => ⟨rfl, rfl, rfl, rfl⟩, ?_, ?_⟩
  · intro s h h255
    show getCell (setCell s ((getCell s + 1) % 256)) = 0
    rw [getCell_setCell s _ h, h255]
  · intro s h h0
    show getCell (setCell s ((getCell s + 255) % 256)) = 255
    rw [getCell_setCell s _ h, h0]

/-- Witness for C8 at concrete states: a cell holding 255 wraps to 0 on
`+`, and the fresh zero cell wraps to 255 on `-`. -/
theorem c8_cell_arith_wraps_witness :
    getCell (parse_command ['+']
      { init with tape := (List.replicate 256 0).set 0 255 }) = 0 ∧
    getCell (parse_command ['-'] init) = 255 :=
  ⟨c8_cell_arith_wraps.2.1 _ (by decide) (by decide),
   c8_cell_arith_wraps.2.2 init (by decide) (by decide)⟩

/-- Claim C10: the `,` instruction stores the `getchar` result truncated
to the cell width (then zeroed if it is the newline code 10) and
advances the input stream; the truncation of the `EOF` sentinel `-1` is
the byte `0xFF = 255`, so at end of input the cell is set to 255 (not
left unchanged); and for an input byte `c < 256` the forced-zero branch
fires exactly when `c` is the newline character. -/
theorem c10_read_input :
    (∀ s : IState,
        parse_command [','] s =
          { setCell s (if truncByte (getchar s.input).1 = 10 then 0
                       else truncByte (getchar s.input).1) with
            input := (getchar s.input).2 }) ∧
    truncByte (-1) = 255 ∧
    (∀ s : IState, s.cursor < s.tape.length → s.input = [] →
        getCell (parse_command [','] s) = 255) ∧
    (∀ c : Nat, c < 256 → (truncByte (c : Int) = 10 ↔ c = 10)) := by
  refine ⟨fun s => rfl, by decide, ?_, ?_⟩
  · intro s h hin
    show getCell (inC s) = 255
    have : inC s = { setCell s 255 with input := [] } := by
      simp [inC, hin, getchar, truncByte]
    rw [this]
    have : getCell { setCell s 255 with input := ([] : List Nat) }
        = getCell (setCell s 255) := rfl
    rw [this, getCell_setCell s 255 h]
  · intro c hc
    have h1 : ((c : Int) % 256) = (c : Int) :=
      Int.emod_eq_of_lt (by exact_mod_cast Nat.zero_le c) (by exact_mod_cast hc)
    constructor
    · intro h
      have : ((c : Int) % 256).toNat = 10 := h
      rw [h1] at this
      exact_mod_cast this
    · intro h
      subst h
      decide

/-- Witness for C10 at concrete states: reading at end of input stores
255, and the newline test at byte 10 holds. -/
theorem c10_read_input_witness :
    getCell (parse_command [','] init) = 255 ∧ truncByte ((10 : Nat) : Int) = 10 :=
  ⟨c10_read_input.2.2.1 init (by decide) rfl,
   (c10_read_input.2.2.2 10 (by norm_num)).mpr rfl⟩

/-- Claim C1 fails on the code (off-by-one): `>` tests
`(memory + MEMORY_SIZE) - current_cell > 0`, i.e. `cursor < 256`, so at
the last index 255 the move succeeds and the cursor reaches index 256 —
equal to the capacity, outside `[0, capacity)` — with no error; the
`AtEndOfMemory` error only fires once the cursor is already at 256.
(The low end behaves as claimed: `<` at index 0 signals `AtStartOfMemory`
and leaves the cursor at 0.) -/
theorem c1_cursor_escapes_bounds :
    (parse_command (List.replicate 255 '>') init).cursor = MEMORY_SIZE - 1 ∧
    (parse_command (List.replicate 255 '>') init).errs = [] ∧
    (parse_command (List.replicate 256 '>') init).cursor = MEMORY_SIZE ∧
    (parse_command (List.replicate 256 '>') init).errs = [] ∧
    (parse_command (List.replicate 257 '>') init).cursor = MEMORY_SIZE ∧
    (parse_command (List.replicate 257 '>') init).errs = [Err.atEnd] ∧
    (parse_command ['<'] init).cursor = 0 ∧
    (parse_command ['<'] init).errs = [Err.atStart] := by
  decide

/-- Claim C2 fails on the code at the input `]+`: `main` only consults
`is_open_block` when the command contains a `[` (`strchr(command, '[')`),
so a command whose closing bracket has no opener anywhere — and which
contains no opener at all — is dispatched flat: no unbalanced-brackets
message is printed (`errs = []`) and its other instructions do mutate
the tape (the cell becomes 1). -/
theorem c2_unbalanced_counterexample :
    (handle_command 1 [']', '+'] init).map (fun s => (s.errs, getCell s))
      = some ([], 1) := by
  decide

/-- Claim C2 amended: a command that contains at least one `[` and whose
brackets classify as invalid is reported as unbalanced and discarded
with no tape, cursor or input mutation, and the loop continues (`some`);
but a command with no `[` at all bypasses classification and is
dispatched flat — in particular `]` alone is silently ignored: no error
message and no state change. -/
theorem c2_unbalanced_reported :
    (∀ (fuel : Nat) (command : List Char) (s : IState),
        command.contains '[' = true → is_open_block command = .invalid →
        handle_command fuel command s
          = some { s with errs := s.errs ++ [Err.unbalanced] }) ∧
    (∀ (fuel : Nat) (s : IState), handle_command fuel [']'] s = some s) := by
  constructor
  · intro fuel command s h1 h2
    unfold handle_command
    rw [h1, h2]
    rfl
  · intro fuel s
    rfl

/-- Witness for the amended C2 at concrete inputs: `][` is reported as
unbalanced with no mutation, and `]` alone is silently ignored. -/
theorem c2_unbalanced_reported_witness :
    handle_command 1 [']', '['] init = some { init with errs := [Err.unbalanced] } ∧
    handle_command 1 [']'] init = some init :=
  ⟨c2_unbalanced_reported.1 1 [']', '['] init (by decide) (by decide),
   c2_unbalanced_reported.2 1 init⟩

/-- Claim C6: `run_loop` is a while loop that tests the guard cell
before each iteration and only re-examines it after the full body has
run (one unfolding step per iteration, dispatching the body through
`parse_block` when it contains a bracket and `parse_command` otherwise);
when the guard cell is zero it exits at once, so executing `[+]` with
the current cell 0 performs zero iterations and returns the state
completely unchanged. -/
theorem c6_loop_semantics :
    (∀ (fuel : Nat) (body : List Char) (s : IState), getCell s ≠ 0 →
        run_loop (fuel + 1) body s =
          (if body.contains '[' then parse_block fuel body s
           else some (parse_command body s)).bind (run_loop fuel body)) ∧
    (∀ (fuel : Nat) (body : List Char) (s : IState), getCell s = 0 →
        run_loop (fuel + 1) body s = some s) ∧
    (∀ s : IState, getCell s = 0 →
        parse_block 2 ['[', '+', ']'] s = some s) := by
  refine ⟨?_, ?_, ?_⟩
  · intro fuel body s h
    rw [run_loop.eq_def]
    simp only [h, ne_eq, not_false_eq_true, if_true, ite_true]
    cases hx : (if body.contains '[' then parse_block fuel body s
                else some (parse_command body s)) with
    | none => rfl
    | some s2 => rfl
  · intro fuel body s h
    rw [run_loop.eq_def]
    simp [h]
  · intro s h
    simp [parse_block.eq_def, run_loop.eq_def, h, find_closing, find_closing_aux,
      List.findIdx, List.findIdx.go]

/-- Witness for C6 at concrete states: one guard test on the fresh
(zero) tape exits the loop immediately, and `[+]` leaves the fresh
state unchanged. -/
theorem c6_loop_semantics_witness :
    run_loop 1 ['+'] init = some init ∧
    parse_block 2 ['[', '+', ']'] init = some init :=
  ⟨c6_loop_semantics.2.1 0 ['+'] init (by decide),
   c6_loop_semantics.2.2 init (by decide)⟩

/-- Claim C7: the command `++++[>++++<-]>` run on the freshly zeroed
256-cell tape with the cursor at cell 0 terminates with the cursor at
index 1, that cell holding 16, and cell 0 holding 0. -/
theorem c7_multiply_scenario :
    (parse_block 12
        ['+', '+', '+', '+', '[', '>', '+', '+', '+', '+', '<', '-', ']', '>']
        init).map (fun s => (s.cursor, s.tape.getD 1 0, s.tape.getD 0 0))
      = some (1, 16, 0) := by
  decide

/-- Claim C3: a `BoundsError` aborts only the flat dispatch in which it
occurs.  A failed `<` (cursor at 0) or failed `>` (cursor past the
capacity test) returns at once, skipping the remaining instructions of
that segment and keeping the state reached so far (only the error is
appended — no rollback); and `parse_block` still runs the sibling
segments afterwards: on `<[-]+` from cursor 0 with the guard cell 1,
the prefix `<` fails, yet the loop body `-` runs (zeroing the cell) and
the suffix `+` runs (setting it to 1). -/
theorem c3_bounds_abort_segment_only :
    (∀ (rest : List Char) (s : IState), s.cursor = 0 →
        parse_command ('<' :: rest) s = { s with errs := s.errs ++ [Err.atStart] }) ∧
    (∀ (rest : List Char) (s : IState), MEMORY_SIZE ≤ s.cursor →
        parse_command ('>' :: rest) s = { s with errs := s.errs ++ [Err.atEnd] }) ∧
    (∀ s : IState, s.cursor = 0 → 0 < s.tape.length → getCell s = 1 →
        parse_block 3 ['<', '[', '-', ']', '+'] s =
          some { s with tape := (s.tape.set 0 0).set 0 1,
                        errs := s.errs ++ [Err.atStart] }) := by
  refine ⟨?_, ?_, ?_⟩
  · intro rest s h
    have e1 : parse_command ('<' :: rest) s =
        if s.cursor > 0 then parse_command rest { s with cursor := s.cursor - 1 }
        else { s with errs := s.errs ++ [Err.atStart] } := rfl
    rw [e1, h]
    rfl
  · intro rest s h
    have e1 : parse_command ('>' :: rest) s =
        if MEMORY_SIZE - s.cursor > 0 then
          parse_command rest { s with cursor := s.cursor + 1 }
        else { s with errs := s.errs ++ [Err.atEnd] } := rfl
    rw [e1, Nat.sub_eq_zero_of_le h]
    rfl
  · intro s h0 hl h1
    obtain ⟨tape, cursor, input, output, errs⟩ := s
    simp only at h0 hl h1 ⊢
    subst h0
    simp only [getCell] at h1
    have hg : tape[0] = 1 := by
      simpa [List.getD, List.getElem?_eq_getElem hl] using h1
    simp [parse_block.eq_def, run_loop.eq_def, parse_command, find_closing,
      find_closing_aux, List.findIdx, List.findIdx.go, decCell, incCell, setCell,
      getCell, hg, hl, List.getD, List.getElem?_set_self']

/-- Witness for C3 at concrete states: on the fresh tape with cell 0
set to 1, `<[-]+` signals `AtStartOfMemory` from the prefix yet the
loop body and suffix still execute. -/
theorem c3_bounds_abort_segment_only_witness :
    parse_command ['<', '+'] init = { init with errs := [Err.atStart] } ∧
    parse_block 3 ['<', '[', '-', ']', '+']
        { init with tape := (List.replicate 256 0).set 0 1 } =
      some { init with
             tape := ((((List.replicate 256 0).set 0 1).set 0 0).set 0 1),
             errs := [Err.atStart] } :=
  ⟨c3_bounds_abort_segment_only.1 ['+'] init rfl,
   c3_bounds_abort_segment_only.2.2 _ rfl (by decide) (by decide)⟩

/-- Claim C9: executing any bracket-free command from two states that
agree on the tape, the cursor and the pending input stream (in
particular, executing it twice from the same starting tape/cursor with
the same input supplied both times) yields the same tape, cursor and
remaining input — there is no hidden mutable state beyond them. -/
theorem c9_no_hidden_state :
    ∀ (command : List Char) (s t : IState),
      command.contains '[' = false → command.contains ']' = false →
      s.tape = t.tape → s.cursor = t.cursor → s.input = t.input →
      (parse_command command s).tape = (parse_command command t).tape ∧
      (parse_command command s).cursor = (parse_command command t).cursor ∧
      (parse_command command s).input = (parse_command command t).input :=
  fun command s t _ _ h1 h2 h3 => parse_command_tci command s t h1 h2 h3

/-- Witness for C9 at a concrete input: rerunning `+>,` from the fresh
tape/cursor/input after a first run has already produced output and
errors gives the same tape, cursor and remaining input. -/
theorem c9_no_hidden_state_witness :
    (parse_command ['+', '>', ','] (initWith [65])).tape =
      (parse_command ['+', '>', ',']
        { initWith [65] with output := [7], errs := [Err.atStart] }).tape ∧
    (parse_command ['+', '>', ','] (initWith [65])).cursor =
      (parse_command ['+', '>', ',']
        { initWith [65] with output := [7], errs := [Err.atStart] }).cursor ∧
    (parse_command ['+', '>', ','] (initWith [65])).input =
      (parse_command ['+', '>', ',']
        { initWith [65] with output := [7], errs := [Err.atStart] }).input :=
  c9_no_hidden_state ['+', '>', ','] _ _ (by decide) (by decide) rfl rfl rfl

/-- Claim C5: on a string classified `CLOSED_BLOCK` that contains an
opening bracket, `find_closing` returns the index `e` of the closing
bracket matching the *first* opening bracket (at index
`b = findIdx`): `e` points at a `]`, the span from `b` through `e`
inclusive has equal counts of openers and closers (`nest` zero), and no
shorter nonempty prefix of that span is balanced. -/
theorem c5_find_closing_matches_first_open :
    ∀ t : List Char, is_open_block t = .closed → '[' ∈ t →
      ∃ b e, b = t.findIdx (fun c => c = '[') ∧ find_closing t = some e ∧
        b < e ∧ e < t.length ∧ t.getD e ' ' = ']' ∧
        nest ((t.drop b).take (e + 1 - b)) = 0 ∧
        ∀ j2, b ≤ j2 → j2 < e → nest ((t.drop b).take (j2 + 1 - b)) ≠ 0 := by
  intro t hclosed hmem
  -- a Closed text has no prefix with negative nesting, and total nesting 0
  have hnoneg : ∀ p, p <+: t → 0 ≤ nest p := by
    intro p hp
    by_contra hneg
    have hinv : is_open_block t = .invalid := by
      unfold is_open_block
      exact (is_open_block_aux_invalid_iff t 0 le_rfl).mpr ⟨p, hp, by omega⟩
    rw [hclosed] at hinv
    exact absurd hinv (by decide)
  have hnest0 : nest t = 0 := by
    have hok := is_open_block_aux_ok t 0 le_rfl (by simpa using hnoneg)
    unfold is_open_block at hclosed
    rw [hclosed] at hok
    by_cases hpos : (0 : Int) + nest t > 0
    · rw [if_pos hpos] at hok
      exact absurd hok (by decide)
    · have := hnoneg t (List.prefix_refl t)
      omega
  -- decompose t at its first opening bracket
  have hblt : t.findIdx (fun c => c = '[') < t.length :=
    List.findIdx_lt_length_of_exists ⟨'[', hmem, by simp⟩
  have hBget : t[t.findIdx (fun c => c = '[')] = '[' := by
    have h0 := @List.findIdx_getElem _ (fun c => decide (c = '[')) t hblt
    simpa using h0
  have hdropB : t.drop (t.findIdx (fun c => c = '['))
      = '[' :: t.drop (t.findIdx (fun c => c = '[') + 1) := by
    have e0 : t.drop (t.findIdx (fun c => c = '['))
        = t[t.findIdx (fun c => c = '[')] :: t.drop (t.findIdx (fun c => c = '[') + 1) :=
      (List.getElem_cons_drop t _ hblt).symm
    rw [e0, hBget]
  have hprelen : (t.take (t.findIdx (fun c => c = '['))).length
      = t.findIdx (fun c => c = '[') := by
    rw [List.length_take]
    omega
  have hsplit : t = t.take (t.findIdx (fun c => c = '['))
      ++ '[' :: t.drop (t.findIdx (fun c => c = '[') + 1) := by
    rw [← hdropB, List.take_append_drop]
  -- the chunk before the first opening bracket has no brackets at all
  have hpreopen : ∀ j, j < t.findIdx (fun c => c = '[') →
      ∀ hj : j < t.length, t[j] ≠ '[' := by
    intro j hjB hj hcon
    have h0 : (fun c => decide (c = '[')) (t[j]) = false := List.not_of_lt_findIdx hjB
    rw [hcon] at h0
    simp at h0
  have hpre : ∀ c ∈ t.take (t.findIdx (fun c => c = '[')), c ≠ '[' ∧ c ≠ ']' := by
    intro c hc
    obtain ⟨j, hj, hjc⟩ := List.getElem_of_mem hc
    have hjB : j < t.findIdx (fun c => c = '[') := by
      rw [hprelen] at hj
      exact hj
    have hjt : j < t.length := lt_trans hjB hblt
    have hcj : c = t[j] := by
      rw [← hjc]
      exact List.getElem_take t
    constructor
    · rw [hcj]
      exact hpreopen j hjB hjt
    · intro hcc
      -- a premature `]` at index j < b would make the prefix take (j+1) negative
      have hnb : ∀ d ∈ t.take (j + 1), d ≠ '[' := by
        intro d hd
        obtain ⟨j2, hj2, hj2d⟩ := List.getElem_of_mem hd
        have hj2t : j2 < t.length := by
          rw [List.length_take] at hj2
          omega
        have hj2B : j2 < t.findIdx (fun c => c = '[') := by
          rw [List.length_take] at hj2
          omega
        rw [← hj2d, List.getElem_take t]
        exact hpreopen j2 hj2B hj2t
      have hcount1 : (t.take (j + 1)).count '[' = 0 :=
        List.count_eq_zero_of_not_mem (fun hm2 => hnb '[' hm2 rfl)
      have hmemc : ']' ∈ t.take (j + 1) := by
        have hjlen : j < (t.take (j + 1)).length := by
          rw [List.length_take]
          omega
        have e1 : (t.take (j + 1))[j] = t[j] := List.getElem_take t
        rw [← hcj, hcc] at e1
        rw [← e1]
        exact List.getElem_mem _
      have hcount2 : 0 < (t.take (j + 1)).count ']' := List.count_pos_iff.mpr hmemc
      have := hnoneg (t.take (j + 1)) (List.take_prefix _ t)
      unfold nest at this
      omega
  have hprenest : nest (t.take (t.findIdx (fun c => c = '['))) = 0 :=
    nest_eq_zero_of_no_brackets _ hpre
  -- total nesting forces the remainder after `[` to have nesting -1
  have hrestnest : nest (t.drop (t.findIdx (fun c => c = '[') + 1)) = -1 := by
    have e1 : nest t = nest (t.take (t.findIdx (fun c => c = '[')))
        + nest ('[' :: t.drop (t.findIdx (fun c => c = '[') + 1)) := by
      rw [← nest_append, ← hsplit]
    rw [nest_cons_open] at e1
    omega
  -- run the scan: skip the bracket-free chunk, step through `[`
  have hscan : find_closing t = find_closing_aux
      (t.drop (t.findIdx (fun c => c = '[') + 1)) 1
      (t.findIdx (fun c => c = '[') + 1) := by
    unfold find_closing
    conv_lhs => rw [hsplit]
    rw [find_closing_aux_skip _ _ 0 0 hpre, hprelen]
    have e2 : ∀ i : Nat, find_closing_aux
        ('[' :: t.drop (t.findIdx (fun c => c = '[') + 1)) 0 i
        = find_closing_aux (t.drop (t.findIdx (fun c => c = '[') + 1)) 1 (i + 1) := by
      intro i
      simp [find_closing_aux]
    rw [e2]
    norm_num
  -- the scan succeeds ...
  have hsome : (find_closing_aux (t.drop (t.findIdx (fun c => c = '[') + 1)) 1
      (t.findIdx (fun c => c = '[') + 1)).isSome = true := by
    refine find_closing_aux_isSome _ 1 _ one_pos
      ⟨(t.drop (t.findIdx (fun c => c = '[') + 1)).length, le_rfl, ?_⟩
    rw [List.take_length, hrestnest]
    omega
  obtain ⟨e, he⟩ := Option.isSome_iff_exists.mp hsome
  -- ... and its result is sound
  obtain ⟨j, hej, hjlt, hjc, hz, hposall⟩ :=
    find_closing_aux_some _ 1 _ e one_pos he
  refine ⟨t.findIdx (fun c => c = '['), e, rfl, by rw [hscan]; exact he,
    by omega, ?_, ?_, ?_, ?_⟩
  · -- e < t.length
    have e1 : t.length = (t.take (t.findIdx (fun c => c = '['))).length
        + ('[' :: t.drop (t.findIdx (fun c => c = '[') + 1)).length := by
      rw [← List.length_append, ← hsplit]
    rw [hprelen, List.length_cons] at e1
    omega
  · -- t.getD e ' ' = ']'
    have e1 : t.getD e ' ' = (t.drop (t.findIdx (fun c => c = '[') + 1)).getD j ' ' := by
      conv_lhs => rw [hsplit]
      rw [List.getD_eq_getElem?_getD, List.getD_eq_getElem?_getD]
      rw [List.getElem?_append_right (by rw [hprelen]; omega)]
      have e2 : e - (t.take (t.findIdx (fun c => c = '['))).length = j + 1 := by
        rw [hprelen]
        omega
      rw [e2]
      simp
    rw [e1]
    exact hjc
  · -- the span from b through e has nesting zero
    rw [hdropB]
    have e1 : e + 1 - t.findIdx (fun c => c = '[') = j + 1 + 1 := by omega
    rw [e1, List.take_succ_cons, nest_cons_open]
    omega
  · -- no shorter nonempty prefix of the span is balanced
    intro j2 hj2b hj2e
    rw [hdropB]
    have e1 : j2 + 1 - t.findIdx (fun c => c = '[')
        = (j2 - t.findIdx (fun c => c = '[')) + 1 := by omega
    rw [e1, List.take_succ_cons, nest_cons_open]
    have := hposall (j2 - t.findIdx (fun c => c = '[')) (by omega)
    omega

/-- Witness for C5 at a concrete text: on `+[>[-]<]+`, classified
closed, `find_closing` returns index 7, the match of the first opening
bracket at index 1. -/
theorem c5_find_closing_matches_first_open_witness :
    ∃ b e, b = ['+', '[', '>', '[', '-', ']', '<', ']', '+'].findIdx (fun c => c = '[')
      ∧ find_closing ['+', '[', '>', '[', '-', ']', '<', ']', '+'] = some e
      ∧ b < e ∧ e < 9
      ∧ ['+', '[', '>', '[', '-', ']', '<', ']', '+'].getD e ' ' = ']'
      ∧ nest ((['+', '[', '>', '[', '-', ']', '<', ']', '+'].drop b).take (e + 1 - b)) = 0
      ∧ ∀ j2, b ≤ j2 → j2 < e →
          nest ((['+', '[', '>', '[', '-', ']', '<', ']', '+'].drop b).take (j2 + 1 - b)) ≠ 0 :=
  c5_find_closing_matches_first_open
    ['+', '[', '>', '[', '-', ']', '<', ']', '+'] (by decide) (by decide)

/-- Claim C4: `is_open_block` scans left to right with a nesting
counter; it returns `INVALID_BLOCK` iff some prefix of the text drives
the counter negative (hence as soon as that happens, regardless of what
follows); on text whose counter never goes negative it returns
`CLOSED_BLOCK` when the counter ends at zero and `OPENED_BLOCK` when it
ends positive — in particular every string with balanced, never-negative
nesting is classified closed. -/
theorem c4_classify_characterization :
    ∀ text : List Char,
      (is_open_block text = .invalid ↔ ∃ p, p <+: text ∧ nest p < 0) ∧
      ((∀ p, p <+: text → 0 ≤ nest p) →
        is_open_block text = if nest text > 0 then .opened else .closed) ∧
      ((∀ p, p <+: text → 0 ≤ nest p) → nest text = 0 →
        is_open_block text = .closed) := by
  intro text
  have hiff := is_open_block_aux_invalid_iff text 0 le_rfl
  simp only [zero_add] at hiff
  refine ⟨hiff, ?_, ?_⟩
  · intro hpre
    have := is_open_block_aux_ok text 0 le_rfl (by simpa using hpre)
    simpa using this
  · intro hpre hz
    have := is_open_block_aux_ok text 0 le_rfl (by simpa using hpre)
    simp only [zero_add, hz] at this
    simpa using this

/-- Witness for C4 at concrete texts: a premature `]` makes `][`
invalid, and the balanced never-negative `[]` is classified closed. -/
theorem c4_classify_characterization_witness :
    is_open_block [']', '['] = .invalid ∧ is_open_block ['[', ']'] = .closed :=
  ⟨(c4_classify_characterization [']', '[']).1.mpr
      ⟨[']'], ⟨['['], rfl⟩, by decide⟩,
   (c4_classify_characterization ['[', ']']).2.2
      (fun p hp => by
        have hm : p ∈ List.inits ['[', ']'] := (List.mem_inits p _).mpr hp
        fin_cases hm <;> decide)
      (by decide)⟩

end BF
